import Mathlib

/-!
Shallow embedding of the MoZuku LSP core (offset model, masking subsystem,
and grammar rule engine) translated from the Python sources
`comment_extractor.py`, `grammar_checker.py` and `server.py`.

Text buffers are modelled as `List Char` (a Python `str` is a sequence of
Unicode code points); byte offsets refer to the UTF-8 encoding of the
buffer and UTF-16 code-unit counts model LSP column positions.
-/

namespace MoZuku

/-- UTF-16 code units contributed by one code point (surrogate pairs count
as 2), as in the `ord(c) > 0xFFFF` tests of the source. -/
def utf16Units (c : Char) : Nat :=
  if 0xFFFF < c.toNat then 2 else 1

/-- UTF-16 code-unit length of a string (`_utf8_to_utf16_length`). -/
def utf16Len (l : List Char) : Nat :=
  (l.map utf16Units).sum

/-- UTF-8 byte length of a string, `len(text.encode("utf-8"))`. -/
def utf8Len (l : List Char) : Nat :=
  (l.map Char.utf8Size).sum

/-- UTF-8 encoding of one code point as a byte list. -/
def charUtf8Bytes (c : Char) : List Nat :=
  let n := c.toNat
  if n < 0x80 then [n]
  else if n < 0x800 then [0xC0 + n / 64, 0x80 + n % 64]
  else if n < 0x10000 then [0xE0 + n / 4096, 0x80 + n / 64 % 64, 0x80 + n % 64]
  else [0xF0 + n / 262144, 0x80 + n / 4096 % 64, 0x80 + n / 64 % 64, 0x80 + n % 64]

/-- UTF-8 encoding of a string, `text.encode("utf-8")`. -/
def utf8Encode (l : List Char) : List Nat :=
  l.flatMap charUtf8Bytes

/-- Python `str.split(sep)` for a one-character separator: always returns a
non-empty list of separator-free pieces. -/
def splitOnChar (sep : Char) : List Char → List (List Char)
  | [] => [[]]
  | c :: cs =>
    if c = sep then [] :: splitOnChar sep cs
    else
      match splitOnChar sep cs with
      | [] => [[c]]
      | l :: ls => (c :: l) :: ls

/-- The pieces of `text.split("\n")` joined back with newlines; inverse of
`splitOnChar` (used only in proofs). -/
def joinNl : List (List Char) → List Char
  | [] => []
  | [l] => l
  | l :: ls => l ++ '\n' :: joinNl ls

/-- Model of `text.encode("utf-8")[:b].decode("utf-8", errors="replace")` for a
buffer encoded from valid text: whole code points within the first `b`
bytes decode to themselves and a cut mid code point yields a single
U+FFFD (Python substitutes one replacement character for a maximal valid
subpart truncated at the end of the data). -/
def decodeUpTo : List Char → Nat → List Char
  | [], _ => []
  | c :: cs, b =>
    if b = 0 then []
    else if c.utf8Size ≤ b then c :: decodeUpTo cs (b - c.utf8Size)
    else [Char.ofNat 0xFFFD]

/-- Model of `len(text.encode("utf-8")[:b].decode("utf-8", errors="replace"))`. -/
def decodeUpToLen (text : List Char) (b : Nat) : Nat :=
  (decodeUpTo text b).length

/-- LSP position (0-based), `analyzer.Position`. -/
structure Position where
  line : Nat := 0
  character : Nat := 0
deriving Repr, DecidableEq

/-- LSP range, `analyzer.Range`. -/
structure Range where
  start : Position := {}
  «end» : Position := {}
deriving Repr, DecidableEq

/-- Sentence boundary information, `analyzer.SentenceBoundary`;
`start`/`end` are byte offsets. -/
structure SentenceBoundary where
  start : Nat := 0
  «end» : Nat := 0
  sentence_id : Nat := 0
  text : List Char := []
deriving Repr, DecidableEq

/-- Token information, `analyzer.TokenData`; `feature` is the raw
comma-separated morphological tag. -/
structure TokenData where
  surface : List Char := []
  feature : List Char := []
  base_form : List Char := []
  reading : List Char := []
  pronunciation : List Char := []
  token_type : String := "unknown"
  token_modifiers : Nat := 0
  line : Nat := 0
  start_char : Nat := 0
  end_char : Nat := 0
deriving Repr, DecidableEq

/-- LSP diagnostic, `grammar_checker.Diagnostic`. -/
structure Diagnostic where
  range : Range := {}
  severity : Nat := 2
  message : String := ""
  source : String := "mozuku"
deriving Repr, DecidableEq

/-- Comment segment, `comment_extractor.CommentSegment`. -/
structure CommentSegment where
  start_byte : Nat := 0
  end_byte : Nat := 0
  sanitized : List Char := []
deriving Repr, DecidableEq

/-- Byte range for content highlighting, `comment_extractor.ByteRange`. -/
structure ByteRange where
  start_byte : Nat := 0
  end_byte : Nat := 0
deriving Repr, DecidableEq

/-! ## Comment sanitization (`_sanitize_comment`, `_sanitize_latex_comment`) -/

/-- The test `c in " \t"`. -/
def isSpaceTab (c : Char) : Bool :=
  c = ' ' || c = '\t'

/-- Replace the leading run of characters satisfying `p` with spaces,
leaving everything from the first failure untouched (one `while` loop of
the sanitizer). -/
def blankLeading (p : Char → Bool) : List Char → List Char
  | [] => []
  | c :: cs => if p c then ' ' :: blankLeading p cs else c :: cs

/-- Replace the leading run satisfying `p` with spaces, then the following
run of spaces/tabs with spaces (the two consecutive `while` loops of the
sanitizer). -/
def blankRunWs (p : Char → Bool) : List Char → List Char
  | [] => []
  | c :: cs => if p c then ' ' :: blankRunWs p cs else blankLeading isSpaceTab (c :: cs)

/-- Trailing `*/` handling of the block-comment branch: if the text ends
with `*/`, blank those two characters and the run of `*` just before
them. -/
def blankTrailingBlockClose (r : List Char) : List Char :=
  match r.reverse with
  | '/' :: '*' :: revRest => (' ' :: ' ' :: blankLeading (fun c => c = '*') revRest).reverse
  | _ => r

/-- The C-family branch of `_sanitize_comment`: `//` line comments and
`/* ... */` block comments (both tests require at least two
characters). -/
def sanitizeCFamily (text : List Char) : List Char :=
  match text with
  | c0 :: c1 :: rest =>
    if c0 = '/' ∧ c1 = '/' then ' ' :: ' ' :: blankRunWs (fun c => c = '/') rest
    else if c0 = '/' ∧ c1 = '*' then
      blankTrailingBlockClose (' ' :: ' ' :: blankRunWs (fun c => c = '*') rest)
    else text
  | _ => text

/-- Model of `_sanitize_comment`: replace leading comment markers with spaces,
preserving length. -/
def sanitizeComment (languageId : String) (text : List Char) : List Char :=
  if text = [] then text
  else if languageId = "python" then
    blankRunWs (fun c => c = '#') text
  else if languageId ∈ ["javascript", "typescript", "c", "cpp", "java", "go", "rust"] then
    sanitizeCFamily text
  else text

/-- Model of `_sanitize_latex_comment`: blank the leading `%`, any further `%` run
and the following whitespace run. -/
def sanitizeLatexComment (text : List Char) : List Char :=
  match text with
  | [] => []
  | _ :: cs => ' ' :: blankRunWs (fun c => c = '%') cs

/-! ## Masking (`mask_text_except_comments`, `mask_text_except_content`) -/

/-- The transform `" " if c not in "\n\r" else c`, applied to the whole buffer. -/
def maskKeepNewlines (text : List Char) : List Char :=
  text.map fun c => if c = '\n' ∨ c = '\r' then c else ' '

/-- Copy a sanitized comment into the masked buffer starting at character
position `pos`; `List.set` leaves the list unchanged for out-of-range
indices, which models the `start_char + j < len(masked)` bounds guard. -/
def copySanitized : List Char → Nat → List Char → List Char
  | masked, _, [] => masked
  | masked, pos, c :: rest => copySanitized (masked.set pos c) (pos + 1) rest

/-- Model of `mask_text_except_comments`: blank everything except newlines, then
restore the sanitized text of each segment at its character offset. -/
def mask_text_except_comments (_languageId : String) (text : List Char)
    (segments : List CommentSegment) : List Char :=
  if segments = [] then maskKeepNewlines text
  else
    segments.foldl
      (fun masked seg =>
        copySanitized masked (decodeUpToLen text seg.start_byte) seg.sanitized)
      (maskKeepNewlines text)

/-- The loop `for j in range(start_char, min(end_char, len(masked)))`,
restoring `count` original characters of `text` from index `j` on. -/
def copyOriginalAux (text : List Char) (masked : List Char) (j : Nat) : Nat → List Char
  | 0 => masked
  | count + 1 => copyOriginalAux text (masked.set j (text.getD j ' ')) (j + 1) count

/-- Model of `mask_text_except_content`: blank everything except newlines, then
restore the original characters of each content range. -/
def mask_text_except_content (_languageId : String) (text : List Char)
    (contentRanges : List ByteRange) : List Char :=
  if contentRanges = [] then maskKeepNewlines text
  else
    contentRanges.foldl
      (fun masked r =>
        let startChar := decodeUpToLen text r.start_byte
        let endChar := decodeUpToLen text r.end_byte
        copyOriginalAux text masked startChar (min endChar masked.length - startChar))
      (maskKeepNewlines text)

/-! ## Offset model (`server._position_to_offset`, `server._byte_offset_to_position`) -/

/-- The UTF-16-to-character loop shared by `_position_to_offset` and
`_utf16_to_char_offset`: consume characters while the accumulated UTF-16
count stays below the target. -/
def utf16ToCharOffset : List Char → Nat → Nat
  | [], _ => 0
  | c :: cs, target =>
    if target = 0 then 0
    else 1 + utf16ToCharOffset cs (target - utf16Units c)

/-- Model of `server._position_to_offset`: LSP position to character offset. -/
def positionToOffset (text : List Char) (line character : Nat) : Nat :=
  let lines := splitOnChar '\n' text
  let before := ((lines.take line).map (fun l => l.length + 1)).sum
  if line < lines.length then
    before + utf16ToCharOffset (lines.getD line []) character
  else before

/-- Model of `server._byte_offset_to_position`: byte offset (clamped to the end of
the buffer) to LSP position, via replacement-decoding of the byte
prefix. -/
def byteOffsetToPosition (text : List Char) (byteOffset : Nat) : Position :=
  let total := utf8Len text
  let b := if total ≤ byteOffset then total else byteOffset
  let decoded := decodeUpTo text b
  let lines := splitOnChar '\n' decoded
  { line := lines.length - 1, character := utf16Len (lines.getLastD []) }

/-- Composition used by the round-trip contract: the character offset of
`_position_to_offset` re-encoded to a byte offset of the prefix. -/
def positionToByteOffset (text : List Char) (line character : Nat) : Nat :=
  utf8Len (text.take (positionToOffset text line character))

/-- A position is valid for a buffer when its line exists and its
character count is the UTF-16 length of some character prefix of that
line (it lies on a code-point boundary within the line). -/
def ValidPosition (text : List Char) (line character : Nat) : Prop :=
  ∃ k, line < (splitOnChar '\n' text).length ∧
    k ≤ ((splitOnChar '\n' text).getD line []).length ∧
    character = utf16Len (((splitOnChar '\n' text).getD line []).take k)

/-! ## Grammar checker (`grammar_checker.py`) -/

/-- Model of `_in_sentence`: byte position within the half-open sentence span. -/
def inSentence (bytePos : Nat) (s : SentenceBoundary) : Bool :=
  s.start ≤ bytePos && bytePos < s.«end»

/-- Model of `_count_commas`: occurrences of the full-width comma. -/
def countCommas (text : List Char) : Nat :=
  text.countP (fun c => c = '、')

/-- The loop of `grammar_checker._byte_offset_to_position` locating the
line: the greatest index whose recorded start does not exceed the
character offset, scanning in order and stopping at the first start
beyond it. -/
def findLineIdx : List Nat → Nat → Nat → Nat → Nat
  | [], _, _, best => best
  | s :: rest, charOffset, i, best =>
    if charOffset < s then best else findLineIdx rest charOffset (i + 1) i

/-- Model of `grammar_checker._byte_offset_to_position`: byte offset to position
using a precomputed character-offset line-start table. -/
def gcByteOffsetToPosition (text : List Char) (lineStarts : List Nat)
    (byteOffset : Nat) : Position :=
  let total := utf8Len text
  let b := if total ≤ byteOffset then total else byteOffset
  let charOffset := (decodeUpTo text b).length
  let line := findLineIdx lineStarts charOffset 0 0
  let lineStart := lineStarts.getD line 0
  let lineText := (text.take charOffset).drop lineStart
  { line := line, character := utf16Len lineText }

/-- Model of `_make_range`. -/
def mkRange (text : List Char) (lineStarts : List Nat) (startByte endByte : Nat) : Range :=
  { start := gcByteOffsetToPosition text lineStarts startByte,
    «end» := gcByteOffsetToPosition text lineStarts endByte }

/-- A severity-2 diagnostic over a byte span, as built by every rule. -/
def mkDiag (text : List Char) (lineStarts : List Nat) (startByte endByte : Nat)
    (message : String) : Diagnostic :=
  { range := mkRange text lineStarts startByte endByte, severity := 2,
    message := message, source := "mozuku" }

/-- The comma-limit diagnostic message. -/
def commaLimitMessage (limit : Int) (commaCount : Nat) : String :=
  s!"一文に使用できる読点「、」は最大{limit}個までです (現在{commaCount}個)"

/-- Model of `_check_comma_limit`. -/
def checkCommaLimit (text : List Char) (sentences : List SentenceBoundary)
    (lineStarts : List Nat) (limit : Int) : List Diagnostic :=
  if limit ≤ 0 then []
  else
    sentences.filterMap fun s =>
      let commaCount := countCommas s.text
      if limit < (commaCount : Int) then
        some (mkDiag text lineStarts s.start s.«end» (commaLimitMessage limit commaCount))
      else none

/-- Model of `_is_adversative_ga`: particle / conjunctive particle with base form が. -/
def isAdversativeGa (feature : List Char) : Bool :=
  let parts := splitOnChar ',' feature
  if parts.length < 7 then false
  else
    decide (parts.getD 0 [] = ['助', '詞'] ∧ parts.getD 1 [] = ['接', '続', '助', '詞'] ∧
      parts.getD 6 [] = ['が'])

/-- Model of `_check_adversative_ga`. -/
def checkAdversativeGa (text : List Char) (tokens : List TokenData)
    (sentences : List SentenceBoundary) (lineStarts : List Nat)
    (tokenBytePositions : List Nat) (maxCount : Int) : List Diagnostic :=
  if maxCount ≤ 0 then []
  else
    sentences.filterMap fun s =>
      let count := ((tokens.zip tokenBytePositions).filter
        (fun tp => isAdversativeGa tp.1.feature && inSentence tp.2 s)).length
      if maxCount < (count : Int) then
        some (mkDiag text lineStarts s.start s.«end»
          s!"逆接の接続助詞「が」が同一文で{maxCount + 1}回以上使われています ({count}回)")
      else none

/-- Model of `_is_particle`. -/
def isParticle (feature : List Char) : Bool :=
  decide ((splitOnChar ',' feature).getD 0 [] = ['助', '詞'])

/-- Model of `_particle_key`: the `品詞,細分類1` string. -/
def particleKey (feature : List Char) : List Char :=
  let parts := splitOnChar ',' feature
  if parts.length < 2 then parts.getD 0 []
  else parts.getD 0 [] ++ ',' :: parts.getD 1 []

/-- Model of `_is_conjunction`. -/
def isConjunction (feature : List Char) : Bool :=
  decide ((splitOnChar ',' feature).getD 0 [] = ['接', '続', '詞'])

/-- Model of `_is_target_verb`: independent ichidan verb in mizenkei form. -/
def isTargetVerb (feature : List Char) : Bool :=
  let parts := splitOnChar ',' feature
  if parts.length < 6 then false
  else
    decide (parts.getD 0 [] = ['動', '詞'] ∧ parts.getD 1 [] = ['自', '立'] ∧
      parts.getD 4 [] = ['一', '段'] ∧ parts.getD 5 [] = ['未', '然', '形'])

/-- Model of `_is_ra_word`: verb suffix token with base form れる. -/
def isRaWord (feature : List Char) : Bool :=
  let parts := splitOnChar ',' feature
  if parts.length < 7 then false
  else
    decide (parts.getD 0 [] = ['動', '詞'] ∧ parts.getD 1 [] = ['接', '尾'] ∧
      parts.getD 6 [] = ['れ', 'る'])

/-- Model of `_is_special_ra_case`: verb with base form 来れる or 見れる. -/
def isSpecialRaCase (feature : List Char) : Bool :=
  let parts := splitOnChar ',' feature
  if parts.length < 7 then false
  else
    decide (parts.getD 0 [] = ['動', '詞'] ∧
      (parts.getD 6 [] = ['来', 'れ', 'る'] ∨ parts.getD 6 [] = ['見', 'れ', 'る']))

/-- Loop state of `_check_duplicate_particle_surface`; `lastLine` starts
at `-1`, before any real line number. -/
structure DupState where
  lastSurface : List Char := []
  lastKey : List Char := []
  lastStartByte : Nat := 0
  lastLine : Int := -1
  streak : Nat := 1
  hasLast : Bool := false
deriving Repr, DecidableEq

/-- Per-sentence token loop of `_check_duplicate_particle_surface`. -/
def dupParticleAux (text : List Char) (lineStarts : List Nat) (s : SentenceBoundary)
    (maxRepeat : Int) : List (TokenData × Nat) → DupState → List Diagnostic
  | [], _ => []
  | (tok, bytePos) :: rest, st =>
    if inSentence bytePos s = false then dupParticleAux text lineStarts s maxRepeat rest st
    else if isParticle tok.feature = false then dupParticleAux text lineStarts s maxRepeat rest st
    else
      let currentKey := particleKey tok.feature
      let st1 :=
        if st.hasLast ∧ (tok.line : Int) ≠ st.lastLine then
          { st with streak := 1, lastStartByte := bytePos, hasLast := false }
        else st
      if st1.hasLast ∧ tok.surface = st1.lastSurface ∧ currentKey = st1.lastKey then
        let streak2 := st1.streak + 1
        let surfStr := String.mk tok.surface
        let emitted :=
          if maxRepeat < (streak2 : Int) then
            [mkDiag text lineStarts st1.lastStartByte (bytePos + utf8Len tok.surface)
              s!"同じ助詞「{surfStr}」が連続しています"]
          else []
        emitted ++ dupParticleAux text lineStarts s maxRepeat rest
          { lastSurface := tok.surface, lastKey := currentKey,
            lastStartByte := st1.lastStartByte, lastLine := (tok.line : Int),
            streak := streak2, hasLast := true }
      else
        dupParticleAux text lineStarts s maxRepeat rest
          { lastSurface := tok.surface, lastKey := currentKey, lastStartByte := bytePos,
            lastLine := (tok.line : Int), streak := 1, hasLast := true }

/-- Model of `_check_duplicate_particle_surface`. -/
def checkDuplicateParticleSurface (text : List Char) (tokens : List TokenData)
    (sentences : List SentenceBoundary) (lineStarts : List Nat)
    (tokenBytePositions : List Nat) (maxRepeat : Int) : List Diagnostic :=
  if maxRepeat ≤ 0 then []
  else
    sentences.flatMap fun s =>
      dupParticleAux text lineStarts s maxRepeat (tokens.zip tokenBytePositions) {}

/-- Loop state of `_check_adjacent_particles`. -/
structure AdjState where
  prevIsParticle : Bool := false
  prevKey : List Char := []
  prevToken : Option TokenData := none
  prevStartByte : Nat := 0
  streak : Nat := 1
deriving Repr, DecidableEq

/-- Per-sentence token loop of `_check_adjacent_particles`; a pair only
counts when the current token starts exactly at the end byte of the
previous particle, and a non-adjacent same-key pair leaves the streak counter
untouched. -/
def adjParticleAux (text : List Char) (lineStarts : List Nat) (s : SentenceBoundary)
    (maxRepeat : Int) : List (TokenData × Nat) → AdjState → List Diagnostic
  | [], _ => []
  | (tok, bytePos) :: rest, st =>
    if inSentence bytePos s = false then adjParticleAux text lineStarts s maxRepeat rest st
    else
      let currentIs := isParticle tok.feature
      let currentKey := particleKey tok.feature
      let matched := currentIs && st.prevIsParticle && decide (currentKey = st.prevKey)
        && st.prevToken.isSome
      let adjacent :=
        match st.prevToken with
        | some pt => decide (bytePos = st.prevStartByte + utf8Len pt.surface)
        | none => false
      let emitted :=
        if matched && adjacent && decide (maxRepeat < ((st.streak + 1 : Nat) : Int)) then
          [mkDiag text lineStarts st.prevStartByte (bytePos + utf8Len tok.surface)
            "助詞が連続して使われています"]
        else []
      let streak2 :=
        if matched then (if adjacent then st.streak + 1 else st.streak) else 1
      emitted ++ adjParticleAux text lineStarts s maxRepeat rest
        { prevIsParticle := currentIs,
          prevKey := if currentIs then currentKey else st.prevKey,
          prevToken := if currentIs then some tok else st.prevToken,
          prevStartByte := if currentIs then bytePos else st.prevStartByte,
          streak := streak2 }

/-- Model of `_check_adjacent_particles`. -/
def checkAdjacentParticles (text : List Char) (tokens : List TokenData)
    (sentences : List SentenceBoundary) (lineStarts : List Nat)
    (tokenBytePositions : List Nat) (maxRepeat : Int) : List Diagnostic :=
  if maxRepeat ≤ 0 then []
  else
    sentences.flatMap fun s =>
      adjParticleAux text lineStarts s maxRepeat (tokens.zip tokenBytePositions) {}

/-- Loop state of `_check_conjunction_repeats`. -/
structure ConjState where
  lastSurface : List Char := []
  lastStartByte : Nat := 0
  lastEndByte : Nat := 0
  streak : Nat := 1
  hasLast : Bool := false
deriving Repr, DecidableEq

/-- Whether the byte slice between the end of the previous conjunction and
the start of the current one contains a newline; a `0x0A` byte in a UTF-8 stream
always decodes to `\n` (continuation bytes are `0x80`-`0xBF`), so
membership of that byte models `"\n" in bytes[a:b].decode(errors="replace")`. -/
def newlineBetween (text : List Char) (a b : Nat) : Bool :=
  (((utf8Encode text).drop a).take (b - a)).contains 10

/-- Token loop of `_check_conjunction_repeats`; the reported span starts
at the previous conjunction because `last_start_byte` is overwritten with
the current start after every conjunction token. -/
def conjRepeatAux (text : List Char) (lineStarts : List Nat) (maxRepeat : Int) :
    List (TokenData × Nat) → ConjState → List Diagnostic
  | [], _ => []
  | (tok, bytePos) :: rest, st =>
    if isConjunction tok.feature = false then conjRepeatAux text lineStarts maxRepeat rest st
    else
      let currentStart := bytePos
      let currentEnd := currentStart + utf8Len tok.surface
      let separated := st.hasLast && newlineBetween text st.lastEndByte currentStart
      if st.hasLast ∧ tok.surface = st.lastSurface ∧ separated = false then
        let streak2 := st.streak + 1
        let surfStr := String.mk tok.surface
        let emitted :=
          if maxRepeat < (streak2 : Int) then
            [mkDiag text lineStarts st.lastStartByte currentEnd
              s!"同じ接続詞「{surfStr}」が連続しています"]
          else []
        emitted ++ conjRepeatAux text lineStarts maxRepeat rest
          { lastSurface := tok.surface, lastStartByte := currentStart,
            lastEndByte := currentEnd, streak := streak2, hasLast := true }
      else
        conjRepeatAux text lineStarts maxRepeat rest
          { lastSurface := tok.surface, lastStartByte := currentStart,
            lastEndByte := currentEnd, streak := 1, hasLast := true }

/-- Model of `_check_conjunction_repeats`. -/
def checkConjunctionRepeats (text : List Char) (tokens : List TokenData)
    (lineStarts : List Nat) (tokenBytePositions : List Nat) (maxRepeat : Int) :
    List Diagnostic :=
  if maxRepeat ≤ 0 then []
  else conjRepeatAux text lineStarts maxRepeat (tokens.zip tokenBytePositions) {}

/-- Message shared by every ra-dropping diagnostic. -/
def raMessage : String := "ら抜き言葉を使用しています"

/-- Standalone 来れる/見れる pass of `_check_ra_dropping`. -/
def raSpecialDiags (text : List Char) (lineStarts : List Nat) :
    List (TokenData × Nat) → List Diagnostic
  | [] => []
  | (tok, bytePos) :: rest =>
    (if isSpecialRaCase tok.feature then
      [mkDiag text lineStarts bytePos (bytePos + utf8Len tok.surface) raMessage]
    else []) ++ raSpecialDiags text lineStarts rest

/-- Two-token pass of `_check_ra_dropping`: a target verb immediately
followed by a れる suffix token. -/
def raPairDiags (text : List Char) (lineStarts : List Nat) :
    Option (TokenData × Nat) → List (TokenData × Nat) → List Diagnostic
  | _, [] => []
  | prev, (tok, bytePos) :: rest =>
    (match prev with
     | some (pt, prevPos) =>
       if isTargetVerb pt.feature ∧ isRaWord tok.feature then
         [mkDiag text lineStarts prevPos (bytePos + utf8Len tok.surface) raMessage]
       else []
     | none => []) ++ raPairDiags text lineStarts (some (tok, bytePos)) rest

/-- Model of `_check_ra_dropping`: the standalone pass followed by the two-token
pass. -/
def checkRaDropping (text : List Char) (tokens : List TokenData)
    (lineStarts : List Nat) (tokenBytePositions : List Nat) : List Diagnostic :=
  let toks := tokens.zip tokenBytePositions
  raSpecialDiags text lineStarts toks ++ raPairDiags text lineStarts none toks

/-- A comment segment with the sanitized characters that would land past
the end of the buffer removed. -/
def truncSegment (text : List Char) (seg : CommentSegment) : CommentSegment :=
  { seg with
    sanitized := seg.sanitized.take (text.length - decodeUpToLen text seg.start_byte) }

/-! ## Lemmas: masking preserves length and drops out-of-range writes -/

theorem copySanitized_length (s : List Char) : ∀ (m : List Char) (p : Nat),
    (copySanitized m p s).length = m.length := by
  induction s with
  | nil => intro m p; rfl
  | cons c rest ih =>
    intro m p
    simp [copySanitized, ih]

theorem copyOriginalAux_length (text : List Char) (count : Nat) :
    ∀ (m : List Char) (j : Nat), (copyOriginalAux text m j count).length = m.length := by
  induction count with
  | zero => intro m j; rfl
  | succ k ih =>
    intro m j
    simp [copyOriginalAux, ih]

theorem maskKeepNewlines_length (text : List Char) :
    (maskKeepNewlines text).length = text.length := by
  simp [maskKeepNewlines]

theorem foldl_copySanitized_length (text : List Char) (segs : List CommentSegment) :
    ∀ (m : List Char),
    (segs.foldl
      (fun masked seg =>
        copySanitized masked (decodeUpToLen text seg.start_byte) seg.sanitized)
      m).length = m.length := by
  induction segs with
  | nil => intro m; rfl
  | cons s rest ih =>
    intro m
    rw [List.foldl_cons, ih, copySanitized_length]

theorem foldl_copyOriginal_length (text : List Char) (ranges : List ByteRange) :
    ∀ (m : List Char),
    (ranges.foldl
      (fun masked r =>
        let startChar := decodeUpToLen text r.start_byte
        let endChar := decodeUpToLen text r.end_byte
        copyOriginalAux text masked startChar (min endChar masked.length - startChar))
      m).length = m.length := by
  induction ranges with
  | nil => intro m; rfl
  | cons r rest ih =>
    intro m
    rw [List.foldl_cons, ih, copyOriginalAux_length]

theorem mask_comments_length (lang : String) (text : List Char)
    (segments : List CommentSegment) :
    (mask_text_except_comments lang text segments).length = text.length := by
  unfold mask_text_except_comments
  split
  · exact maskKeepNewlines_length text
  · rw [foldl_copySanitized_length, maskKeepNewlines_length]

theorem mask_content_length (lang : String) (text : List Char)
    (ranges : List ByteRange) :
    (mask_text_except_content lang text ranges).length = text.length := by
  unfold mask_text_except_content
  split
  · exact maskKeepNewlines_length text
  · rw [foldl_copyOriginal_length, maskKeepNewlines_length]

theorem copySanitized_of_length_le (s : List Char) : ∀ (m : List Char) (p : Nat),
    m.length ≤ p → copySanitized m p s = m := by
  induction s with
  | nil => intro m p _; rfl
  | cons c rest ih =>
    intro m p h
    show copySanitized (m.set p c) (p + 1) rest = m
    rw [List.set_eq_of_length_le h, ih m (p + 1) (Nat.le_succ_of_le h)]

theorem copySanitized_take (s : List Char) : ∀ (m : List Char) (p : Nat),
    copySanitized m p s = copySanitized m p (s.take (m.length - p)) := by
  induction s with
  | nil => intro m p; simp
  | cons c rest ih =>
    intro m p
    rcases Nat.lt_or_ge p m.length with hlt | hge
    · obtain ⟨k, hk⟩ : ∃ k, m.length - p = k + 1 :=
        ⟨m.length - p - 1, by omega⟩
      rw [hk, List.take_succ_cons]
      show copySanitized (m.set p c) (p + 1) rest =
        copySanitized (m.set p c) (p + 1) (rest.take k)
      have hlen : (m.set p c).length - (p + 1) = k := by
        rw [List.length_set]; omega
      rw [ih (m.set p c) (p + 1), hlen]
    · have h0 : m.length - p = 0 := Nat.sub_eq_zero_of_le hge
      rw [h0, List.take_zero, copySanitized_of_length_le _ m p hge]
      rfl

theorem foldl_copySanitized_trunc (text : List Char) (segs : List CommentSegment) :
    ∀ (m : List Char), m.length = text.length →
    segs.foldl
      (fun masked seg =>
        copySanitized masked (decodeUpToLen text seg.start_byte) seg.sanitized) m =
    (segs.map (truncSegment text)).foldl
      (fun masked seg =>
        copySanitized masked (decodeUpToLen text seg.start_byte) seg.sanitized) m := by
  induction segs with
  | nil => intro m _; rfl
  | cons s rest ih =>
    intro m hm
    rw [List.map_cons, List.foldl_cons, List.foldl_cons]
    have hstep : copySanitized m (decodeUpToLen text s.start_byte) s.sanitized =
        copySanitized m (decodeUpToLen text s.start_byte)
          (truncSegment text s).sanitized := by
      rw [copySanitized_take, truncSegment, hm]
    rw [hstep]
    exact ih _ (by rw [copySanitized_length, hm])

/-- C1. For every input text and every list of comment segments or
content byte ranges, `mask_text_except_comments` and
`mask_text_except_content` return a string whose character length equals
the character length of the input, including for the empty segment
list. -/
theorem masking_length_invariance (lang : String) (text : List Char)
    (segments : List CommentSegment) (ranges : List ByteRange) :
    (mask_text_except_comments lang text segments).length = text.length ∧
    (mask_text_except_content lang text ranges).length = text.length :=
  ⟨mask_comments_length lang text segments, mask_content_length lang text ranges⟩

/-- C10. `mask_text_except_comments` is total over arbitrary segment
lists: sanitized characters that would land beyond the end of the buffer
are dropped (the result equals the result for the segments truncated to
the buffer) and the output always keeps the character length of the
input. -/
theorem mask_comments_out_of_range_dropped (lang : String) (text : List Char)
    (segments : List CommentSegment) :
    mask_text_except_comments lang text segments =
      mask_text_except_comments lang text (segments.map (truncSegment text)) ∧
    (mask_text_except_comments lang text segments).length = text.length := by
  refine ⟨?_, mask_comments_length lang text segments⟩
  unfold mask_text_except_comments
  rcases eq_or_ne segments [] with h | h
  · subst h; rfl
  · rw [if_neg h, if_neg (by simpa using h)]
    exact foldl_copySanitized_trunc text segments _ (maskKeepNewlines_length text)

/-! ## Lemmas: sanitization is idempotent -/

theorem blankLeading_ws_idem (l : List Char) :
    blankLeading isSpaceTab (blankLeading isSpaceTab l) = blankLeading isSpaceTab l := by
  induction l with
  | nil => rfl
  | cons c cs ih =>
    by_cases h : isSpaceTab c
    · simp only [blankLeading, if_pos h]
      have hsp : isSpaceTab ' ' = true := rfl
      simp only [blankLeading, if_pos hsp, ih]
    · simp only [blankLeading, if_neg h]

theorem blankLeading_ws_blankRunWs (p : Char → Bool) (l : List Char) :
    blankLeading isSpaceTab (blankRunWs p l) = blankRunWs p l := by
  induction l with
  | nil => rfl
  | cons c cs ih =>
    by_cases h : p c
    · simp only [blankRunWs, if_pos h]
      have hsp : isSpaceTab ' ' = true := rfl
      simp only [blankLeading, if_pos hsp, ih]
    · simp only [blankRunWs, if_neg h]
      exact blankLeading_ws_idem (c :: cs)

theorem blankRunWs_idem (p : Char → Bool) (hp : p ' ' = false) (l : List Char) :
    blankRunWs p (blankRunWs p l) = blankRunWs p l := by
  have hsp : isSpaceTab ' ' = true := rfl
  induction l with
  | nil => rfl
  | cons c cs _ =>
    by_cases h : p c
    · rw [show blankRunWs p (c :: cs) = ' ' :: blankRunWs p cs from by
        rw [blankRunWs, if_pos h]]
      rw [blankRunWs, if_neg (by simp [hp]), blankLeading, if_pos hsp,
        blankLeading_ws_blankRunWs]
    · rw [show blankRunWs p (c :: cs) = blankLeading isSpaceTab (c :: cs) from by
        rw [blankRunWs, if_neg h]]
      by_cases hws : isSpaceTab c
      · rw [show blankLeading isSpaceTab (c :: cs) = ' ' :: blankLeading isSpaceTab cs from by
          rw [blankLeading, if_pos hws]]
        rw [blankRunWs, if_neg (by simp [hp]), blankLeading, if_pos hsp,
          blankLeading_ws_idem]
      · rw [show blankLeading isSpaceTab (c :: cs) = c :: cs from by
          rw [blankLeading, if_neg hws]]
        rw [blankRunWs, if_neg h, blankLeading, if_neg hws]

theorem blankLeading_append_singleton (p : Char → Bool) (d : Char) (hd : p d = false)
    (l : List Char) : ∃ m, blankLeading p (l ++ [d]) = m ++ [d] := by
  induction l with
  | nil => exact ⟨[], by simp [blankLeading, hd]⟩
  | cons c cs ih =>
    by_cases h : p c
    · obtain ⟨m, hm⟩ := ih
      exact ⟨' ' :: m, by simp [blankLeading, if_pos h, hm]⟩
    · exact ⟨c :: cs, by simp [blankLeading, if_neg h]⟩

theorem blankTrailingBlockClose_head (xs : List Char) :
    ∃ t, blankTrailingBlockClose (' ' :: xs) = ' ' :: t := by
  unfold blankTrailingBlockClose
  split
  · next revRest heq =>
    have hrev : ' ' :: xs = revRest.reverse ++ ['*', '/'] := by
      have := congrArg List.reverse heq
      simpa using this
    rcases hrr : revRest.reverse with _ | ⟨y, ys⟩
    · rw [hrr] at hrev
      simp at hrev
    · rw [hrr] at hrev
      have hy : y = ' ' := by
        have := congrArg (fun l => l.headI) hrev
        simpa using this.symm
      have hrevRest : revRest = ys.reverse ++ [' '] := by
        have := congrArg List.reverse hrr
        simpa [hy] using this
      obtain ⟨m, hm⟩ := blankLeading_append_singleton (fun c => c = '*') ' '
        (by decide) ys.reverse
      rw [hrevRest, hm]
      exact ⟨m.reverse ++ [' ', ' '], by simp⟩
  · exact ⟨xs, rfl⟩

theorem blankLeading_length (p : Char → Bool) (l : List Char) :
    (blankLeading p l).length = l.length := by
  induction l with
  | nil => rfl
  | cons c cs ih =>
    by_cases h : p c <;> simp [blankLeading, h, ih]

theorem blankRunWs_length (p : Char → Bool) (l : List Char) :
    (blankRunWs p l).length = l.length := by
  induction l with
  | nil => rfl
  | cons c cs ih =>
    by_cases h : p c
    · simp [blankRunWs, h, ih]
    · simp only [blankRunWs, if_neg h]
      exact blankLeading_length isSpaceTab (c :: cs)

theorem sanitizeCFamily_space (t : List Char) :
    sanitizeCFamily (' ' :: t) = ' ' :: t := by
  cases t with
  | nil => rfl
  | cons d ds =>
    simp only [sanitizeCFamily]
    rw [if_neg (by simp), if_neg (by simp)]

theorem sanitizeCFamily_idem (text : List Char) :
    sanitizeCFamily (sanitizeCFamily text) = sanitizeCFamily text := by
  match text with
  | [] => rfl
  | [c] => rfl
  | c0 :: c1 :: rest =>
    by_cases h1 : c0 = '/' ∧ c1 = '/'
    · rw [sanitizeCFamily, if_pos h1]
      exact sanitizeCFamily_space _
    · by_cases h2 : c0 = '/' ∧ c1 = '*'
      · rw [sanitizeCFamily, if_neg h1, if_pos h2]
        obtain ⟨t, ht⟩ :=
          blankTrailingBlockClose_head (' ' :: blankRunWs (fun c => c = '*') rest)
        rw [ht]
        exact sanitizeCFamily_space t
      · rw [sanitizeCFamily, if_neg h1, if_neg h2, sanitizeCFamily, if_neg h1, if_neg h2]

/-- C7. Comment sanitization is idempotent for every language id:
applying `_sanitize_comment` or `_sanitize_latex_comment` twice yields
the same string as applying it once. -/
theorem sanitize_idempotent (languageId : String) (text : List Char) :
    sanitizeComment languageId (sanitizeComment languageId text) =
      sanitizeComment languageId text ∧
    sanitizeLatexComment (sanitizeLatexComment text) = sanitizeLatexComment text := by
  constructor
  · rcases eq_or_ne text [] with rfl | hne
    · rfl
    · by_cases hpy : languageId = "python"
      · have hres : sanitizeComment languageId text = blankRunWs (fun c => c = '#') text := by
          rw [sanitizeComment, if_neg hne, if_pos hpy]
        have hlen : blankRunWs (fun c => c = '#') text ≠ [] := by
          intro h
          have := blankRunWs_length (fun c => c = '#') text
          rw [h] at this
          exact hne (List.eq_nil_of_length_eq_zero this.symm)
        rw [hres, sanitizeComment, if_neg hlen, if_pos hpy]
        exact blankRunWs_idem _ (by decide) text
      · by_cases hcf : languageId ∈ ["javascript", "typescript", "c", "cpp", "java", "go", "rust"]
        · have hres : sanitizeComment languageId text = sanitizeCFamily text := by
            rw [sanitizeComment, if_neg hne, if_neg hpy, if_pos hcf]
          rcases eq_or_ne (sanitizeCFamily text) [] with hnil | hne2
          · rw [hres, hnil]
            simp [sanitizeComment]
          · rw [hres, sanitizeComment, if_neg hne2, if_neg hpy, if_pos hcf]
            exact sanitizeCFamily_idem text
        · have hres : sanitizeComment languageId text = text := by
            rw [sanitizeComment, if_neg hne, if_neg hpy, if_neg hcf]
          rw [hres, hres]
  · cases text with
    | nil => rfl
    | cons c cs =>
      show sanitizeLatexComment (' ' :: blankRunWs (fun c => c = '%') cs) = _
      rw [sanitizeLatexComment, sanitizeLatexComment]
      rw [blankRunWs_idem _ (by decide)]

/-! ## Lemmas: short feature records and nonpositive thresholds -/

theorem raSpecialDiags_eq_nil (text : List Char) (lineStarts : List Nat)
    (toks : List (TokenData × Nat))
    (h : ∀ tp ∈ toks, isSpecialRaCase (Prod.fst tp).feature = false) :
    raSpecialDiags text lineStarts toks = [] := by
  induction toks with
  | nil => rfl
  | cons tp rest ih =>
    obtain ⟨tok, bytePos⟩ := tp
    rw [raSpecialDiags, if_neg (by simp [h (tok, bytePos) (List.mem_cons_self _ _)]),
      List.nil_append]
    exact ih fun x hx => h x (List.mem_cons_of_mem _ hx)

theorem raPairDiags_eq_nil (text : List Char) (lineStarts : List Nat)
    (toks : List (TokenData × Nat))
    (h : ∀ tp ∈ toks, isRaWord (Prod.fst tp).feature = false) :
    ∀ prev, raPairDiags text lineStarts prev toks = [] := by
  induction toks with
  | nil => intro prev; rfl
  | cons tp rest ih =>
    intro prev
    obtain ⟨tok, bytePos⟩ := tp
    have hr : isRaWord tok.feature = false := h (tok, bytePos) (List.mem_cons_self _ _)
    have htail := ih (fun x hx => h x (List.mem_cons_of_mem _ hx)) (some (tok, bytePos))
    cases prev with
    | none => simpa [raPairDiags] using htail
    | some pp =>
      obtain ⟨pt, prevPos⟩ := pp
      rw [raPairDiags]
      rw [if_neg (by simp [hr]), List.nil_append]
      exact htail

/-- C8. A feature record with fewer comma-separated fields than a
predicate reads is treated as non-matching: the adversative-が, れる-suffix
and special-case predicates reject records with fewer than 7 fields, the
target-verb predicate rejects records with fewer than 6, and streams made
of such tokens produce no ra-dropping or adversative-が diagnostics. -/
theorem short_feature_non_matching (feature : List Char) (text : List Char)
    (tokens : List TokenData) (sentences : List SentenceBoundary)
    (lineStarts : List Nat) (positions : List Nat) (m : Int) :
    ((splitOnChar ',' feature).length < 7 →
      isAdversativeGa feature = false ∧ isRaWord feature = false ∧
        isSpecialRaCase feature = false) ∧
    ((splitOnChar ',' feature).length < 6 → isTargetVerb feature = false) ∧
    ((∀ t ∈ tokens, (splitOnChar ',' t.feature).length < 7) →
      checkRaDropping text tokens lineStarts positions = [] ∧
      checkAdversativeGa text tokens sentences lineStarts positions m = []) := by
  refine ⟨fun h7 => ?_, fun h6 => ?_, fun hall => ⟨?_, ?_⟩⟩
  · exact ⟨by simp [isAdversativeGa, h7], by simp [isRaWord, h7],
      by simp [isSpecialRaCase, h7]⟩
  · simp [isTargetVerb, h6]
  · have hshort : ∀ tp ∈ tokens.zip positions,
        (splitOnChar ',' (Prod.fst tp).feature).length < 7 :=
      fun tp htp => hall _ (List.of_mem_zip htp).1
    rw [checkRaDropping]
    rw [raSpecialDiags_eq_nil _ _ _
      (fun tp htp => by simp [isSpecialRaCase, hshort tp htp])]
    rw [raPairDiags_eq_nil _ _ _
      (fun tp htp => by simp [isRaWord, hshort tp htp])]
    rfl
  · rw [checkAdversativeGa]
    rcases le_or_lt m 0 with hm | hm
    · rw [if_pos hm]
    · rw [if_neg (not_le.mpr hm)]
      rw [List.filterMap_eq_nil_iff]
      intro s _
      have hfil : (tokens.zip positions).filter
          (fun tp => isAdversativeGa (Prod.fst tp).feature && inSentence (Prod.snd tp) s)
          = [] := by
        rw [List.filter_eq_nil_iff]
        intro tp htp
        have : isAdversativeGa (Prod.fst tp).feature = false := by
          simp [isAdversativeGa, hall _ (List.of_mem_zip htp).1]
        simp [this]
      rw [hfil]
      simp only [List.length_nil]
      rw [if_neg (by omega)]

/-- C9. For each threshold-parameterized rule, a configured threshold of
zero or a negative value disables the rule entirely: the check returns no
diagnostics for every input. -/
theorem nonpositive_threshold_disables (m : Int) (text : List Char)
    (tokens : List TokenData) (sentences : List SentenceBoundary)
    (lineStarts : List Nat) (positions : List Nat) (hm : m ≤ 0) :
    checkCommaLimit text sentences lineStarts m = [] ∧
    checkAdversativeGa text tokens sentences lineStarts positions m = [] ∧
    checkDuplicateParticleSurface text tokens sentences lineStarts positions m = [] ∧
    checkAdjacentParticles text tokens sentences lineStarts positions m = [] ∧
    checkConjunctionRepeats text tokens lineStarts positions m = [] := by
  refine ⟨?_, ?_, ?_, ?_, ?_⟩ <;>
    simp [checkCommaLimit, checkAdversativeGa, checkDuplicateParticleSurface,
      checkAdjacentParticles, checkConjunctionRepeats, hm]

/-! ## Comma limit (C3) -/

theorem length_filterMap_ite {α β : Type} (f : α → β) (p : α → Prop)
    [DecidablePred p] (l : List α) :
    (l.filterMap (fun a => if p a then some (f a) else none)).length =
    (l.filter (fun a => decide (p a))).length := by
  induction l with
  | nil => rfl
  | cons a rest ih =>
    by_cases h : p a <;> simp [List.filterMap_cons, List.filter_cons, h, ih]

/-- The four-comma example sentence これは、とても、良い、本、です。 -/
def commaExampleText : List Char :=
  ['こ', 'れ', 'は', '、', 'と', 'て', 'も', '、', '良', 'い', '、', '本', '、', 'で', 'す', '。']

/-- Sentence boundary covering the whole 48-byte example sentence. -/
def commaExampleSentence : SentenceBoundary :=
  { start := 0, «end» := 48, sentence_id := 0, text := commaExampleText }

/-- C3 counterexample: with configured maximum 0 the sentence あ、 has
strictly more commas than the maximum, yet the rule emits no diagnostic
(the claimed "any configured maximum m" fails at m = 0). -/
theorem comma_limit_claim_counterexample :
    (0 : Int) < (countCommas ['あ', '、'] : Int) ∧
    checkCommaLimit ['あ', '、'] [{ «end» := 6, text := ['あ', '、'] }] [0] 0 = [] := by
  constructor
  · decide
  · rfl

/-- C3 (amended to a positive configured maximum). With the rule enabled
and any maximum m ≥ 1, a sentence gets a diagnostic spanning the whole
sentence iff its full-width comma count strictly exceeds m; the
four-comma example sentence yields exactly one sentence-spanning
diagnostic at m = 3 and none at m = 4. -/
theorem comma_limit_characterization (text : List Char)
    (sentences : List SentenceBoundary) (lineStarts : List Nat) (m : Int)
    (hm : 0 < m) :
    ((checkCommaLimit text sentences lineStarts m).length =
      (sentences.filter (fun s => decide (m < (countCommas s.text : Int)))).length) ∧
    (∀ d ∈ checkCommaLimit text sentences lineStarts m,
      ∃ s ∈ sentences, m < (countCommas s.text : Int) ∧
        d.range = mkRange text lineStarts s.start s.«end») ∧
    (∀ s ∈ sentences, m < (countCommas s.text : Int) →
      ∃ d ∈ checkCommaLimit text sentences lineStarts m,
        d.range = mkRange text lineStarts s.start s.«end») ∧
    ((checkCommaLimit commaExampleText [commaExampleSentence] [0] 3).length = 1 ∧
      ∀ d ∈ checkCommaLimit commaExampleText [commaExampleSentence] [0] 3,
        d.range = mkRange commaExampleText [0] commaExampleSentence.start
          commaExampleSentence.«end») ∧
    checkCommaLimit commaExampleText [commaExampleSentence] [0] 4 = [] := by
  have hunfold : checkCommaLimit text sentences lineStarts m =
      sentences.filterMap (fun s =>
        if m < (countCommas s.text : Int) then
          some (mkDiag text lineStarts s.start s.«end»
            (commaLimitMessage m (countCommas s.text)))
        else none) := by
    rw [checkCommaLimit, if_neg (not_le.mpr hm)]
  refine ⟨?_, ?_, ?_, ⟨?_, ?_⟩, ?_⟩
  · rw [hunfold]
    exact length_filterMap_ite _ _ sentences
  · intro d hd
    rw [hunfold] at hd
    obtain ⟨s, hs, hfs⟩ := List.mem_filterMap.mp hd
    by_cases h : m < (countCommas s.text : Int)
    · rw [if_pos h] at hfs
      refine ⟨s, hs, h, ?_⟩
      rw [← Option.some_inj.mp hfs]
      rfl
    · rw [if_neg h] at hfs
      exact absurd hfs (by simp)
  · intro s hs h
    refine ⟨mkDiag text lineStarts s.start s.«end»
      (commaLimitMessage m (countCommas s.text)), ?_, rfl⟩
    rw [hunfold]
    exact List.mem_filterMap.mpr ⟨s, hs, by rw [if_pos h]⟩
  · decide
  · decide
  · rfl

/-- Witness for C3's amended theorem at the four-comma example sentence
and maximum 3. -/
theorem comma_limit_characterization_witness :
    (0 : Int) < 3 ∧
    (checkCommaLimit commaExampleText [commaExampleSentence] [0] 3).length = 1 := by
  have h := comma_limit_characterization commaExampleText [commaExampleSentence]
    [0] 3 (by decide)
  exact ⟨by decide, h.2.2.2.1.1⟩

/-! ## Streak and adjacency rules (C4, C5, C6) -/

/-- C4. Two identical consecutive particle tokens (same surface, same
particle key) lying in the same sentence but on different lines produce
no `duplicate_particle_surface` diagnostic even at `max_repeat = 1`: the
streak is reset when the line changes. -/
theorem duplicate_particle_line_reset (text : List Char) (lineStarts : List Nat)
    (t1 t2 : TokenData) (p1 p2 : Nat) (s : SentenceBoundary)
    (h1 : isParticle t1.feature = true) (h2 : isParticle t2.feature = true)
    (hsurf : t1.surface = t2.surface)
    (hkey : particleKey t1.feature = particleKey t2.feature)
    (hin1 : inSentence p1 s = true) (hin2 : inSentence p2 s = true)
    (hline : t1.line ≠ t2.line) :
    checkDuplicateParticleSurface text [t1, t2] [s] lineStarts [p1, p2] 1 = [] := by
  have hlineInt : (t2.line : Int) ≠ (t1.line : Int) := by
    intro h
    exact hline (by exact_mod_cast h.symm)
  rw [checkDuplicateParticleSurface, if_neg (by decide)]
  simp [dupParticleAux, hin1, hin2, h1, h2, hlineInt]

/-- Witness for C4: the particle が repeated on two different lines. -/
theorem duplicate_particle_line_reset_witness :
    isParticle ['助', '詞'] = true ∧
    checkDuplicateParticleSurface []
      [{ surface := ['が'], feature := ['助', '詞'], line := 0 },
       { surface := ['が'], feature := ['助', '詞'], line := 1 }]
      [{ «end» := 100 }] [] [0, 7] 1 = [] := by
  refine ⟨by decide, ?_⟩
  exact duplicate_particle_line_reset []
    [] { surface := ['が'], feature := ['助', '詞'], line := 0 }
    { surface := ['が'], feature := ['助', '詞'], line := 1 } 0 7 { «end» := 100 }
    (by decide) (by decide) (by decide) (by decide) (by decide) (by decide) (by decide)

/-- C5. Two consecutive particle tokens of the same key in one sentence
are flagged by `adjacent_particles` (at `max_repeat = 1`) exactly when
the start byte of the second token equals that of the first plus
the UTF-8 length of its surface; with a gap (for example an intervening
space) no diagnostic is produced. -/
theorem adjacent_particles_byte_adjacency (text : List Char) (lineStarts : List Nat)
    (t1 t2 : TokenData) (p1 p2 : Nat) (s : SentenceBoundary)
    (h1 : isParticle t1.feature = true) (h2 : isParticle t2.feature = true)
    (hkey : particleKey t2.feature = particleKey t1.feature)
    (hin1 : inSentence p1 s = true) (hin2 : inSentence p2 s = true) :
    (p2 = p1 + utf8Len t1.surface →
      checkAdjacentParticles text [t1, t2] [s] lineStarts [p1, p2] 1 =
        [mkDiag text lineStarts p1 (p2 + utf8Len t2.surface)
          "助詞が連続して使われています"]) ∧
    (p2 ≠ p1 + utf8Len t1.surface →
      checkAdjacentParticles text [t1, t2] [s] lineStarts [p1, p2] 1 = []) := by
  constructor
  · intro hadj
    subst hadj
    rw [checkAdjacentParticles, if_neg (by decide)]
    simp [adjParticleAux, hin1, hin2, h1, h2, hkey]
  · intro hadj
    rw [checkAdjacentParticles, if_neg (by decide)]
    simp [adjParticleAux, hin1, hin2, h1, h2, hkey, hadj]

/-- Witness for C5: two が particles, byte-adjacent (flagged) and
separated by one byte (not flagged). -/
theorem adjacent_particles_byte_adjacency_witness :
    (3 : Nat) = 0 + utf8Len ['が'] ∧
    checkAdjacentParticles []
      [{ surface := ['が'], feature := ['助', '詞'] },
       { surface := ['が'], feature := ['助', '詞'] }]
      [{ «end» := 100 }] [] [0, 3] 1 =
      [mkDiag [] [] 0 (3 + utf8Len ['が']) "助詞が連続して使われています"] ∧
    checkAdjacentParticles []
      [{ surface := ['が'], feature := ['助', '詞'] },
       { surface := ['が'], feature := ['助', '詞'] }]
      [{ «end» := 100 }] [] [0, 4] 1 = [] := by
  refine ⟨by decide, ?_, ?_⟩
  · exact (adjacent_particles_byte_adjacency [] []
      { surface := ['が'], feature := ['助', '詞'] }
      { surface := ['が'], feature := ['助', '詞'] } 0 3 { «end» := 100 }
      (by decide) (by decide) (by decide) (by decide) (by decide)).1 (by decide)
  · exact (adjacent_particles_byte_adjacency [] []
      { surface := ['が'], feature := ['助', '詞'] }
      { surface := ['が'], feature := ['助', '詞'] } 0 4 { «end» := 100 }
      (by decide) (by decide) (by decide) (by decide) (by decide)).2 (by decide)

theorem isRaWord_not_special (f : List Char) (h : isRaWord f = true) :
    isSpecialRaCase f = false := by
  unfold isRaWord at h
  unfold isSpecialRaCase
  by_cases hl : (splitOnChar ',' f).length < 7
  · rw [if_pos hl] at h
    exact absurd h (by simp)
  · rw [if_neg hl] at h
    rw [if_neg hl]
    obtain ⟨-, -, h6⟩ := of_decide_eq_true h
    rw [decide_eq_false_iff_not]
    rintro ⟨-, h66 | h66⟩ <;> rw [h6] at h66 <;> exact absurd h66 (by decide)

/-- C6. A target verb token (verb / independent / ichidan / mizenkei)
immediately followed by a れる suffix token yields exactly one
ra-dropping diagnostic, spanning from the start byte of the first token
to the end byte of the second. -/
theorem ra_dropping_two_token (text : List Char) (lineStarts : List Nat)
    (t1 t2 : TokenData) (p1 p2 : Nat)
    (h1 : isTargetVerb t1.feature = true) (h2 : isRaWord t2.feature = true)
    (hs1 : isSpecialRaCase t1.feature = false) :
    checkRaDropping text [t1, t2] lineStarts [p1, p2] =
      [mkDiag text lineStarts p1 (p2 + utf8Len t2.surface) raMessage] := by
  have hs2 : isSpecialRaCase t2.feature = false := isRaWord_not_special _ h2
  simp [checkRaDropping, raSpecialDiags, raPairDiags, h1, h2, hs1, hs2]

/-- The feature record of the mizenkei ichidan verb 見る. -/
def raExampleVerbFeature : List Char :=
  ['動', '詞', ',', '自', '立', ',', '*', ',', '*', ',', '一', '段', ',', '未', '然', '形',
   ',', '見', 'る']

/-- The feature record of the suffix れる. -/
def raExampleSuffixFeature : List Char :=
  ['動', '詞', ',', '接', '尾', ',', '*', ',', '*', ',', '一', '段', ',', '基', '本', '形',
   ',', 'れ', 'る']

/-- Witness for C6: 見 (target verb) followed by れる. -/
theorem ra_dropping_two_token_witness :
    isTargetVerb raExampleVerbFeature = true ∧
    isRaWord raExampleSuffixFeature = true ∧
    checkRaDropping []
      [{ surface := ['見'], feature := raExampleVerbFeature },
       { surface := ['れ', 'る'], feature := raExampleSuffixFeature }]
      [] [0, 3] =
      [mkDiag [] [] 0 (3 + utf8Len ['れ', 'る']) raMessage] := by
  refine ⟨by decide, by decide, ?_⟩
  exact ra_dropping_two_token [] [] { surface := ['見'], feature := raExampleVerbFeature }
    { surface := ['れ', 'る'], feature := raExampleSuffixFeature } 0 3
    (by decide) (by decide) (by decide)

/-! ## Offset model lemmas (C2) -/

theorem splitOnChar_ne_nil (sep : Char) (l : List Char) : splitOnChar sep l ≠ [] := by
  cases l with
  | nil => simp [splitOnChar]
  | cons c cs =>
    rw [splitOnChar]
    split
    · simp
    · split <;> simp

theorem joinNl_cons_of_ne_nil (x : List Char) (ys : List (List Char)) (h : ys ≠ []) :
    joinNl (x :: ys) = x ++ '\n' :: joinNl ys := by
  cases ys with
  | nil => exact absurd rfl h
  | cons y ys' => rfl

theorem joinNl_splitOnChar (l : List Char) : joinNl (splitOnChar '\n' l) = l := by
  induction l with
  | nil => rfl
  | cons c cs ih =>
    by_cases hc : c = '\n'
    · subst hc
      rw [splitOnChar, if_pos rfl,
        joinNl_cons_of_ne_nil _ _ (splitOnChar_ne_nil '\n' cs), ih]
      rfl
    · rw [splitOnChar, if_neg hc]
      rcases hsp : splitOnChar '\n' cs with _ | ⟨l0, ls0⟩
      · exact absurd hsp (splitOnChar_ne_nil '\n' cs)
      · rw [hsp] at ih
        cases ls0 with
        | nil =>
          show c :: l0 = c :: cs
          rw [show joinNl [l0] = l0 from rfl] at ih
          rw [ih]
        | cons l1 ls1 =>
          rw [joinNl_cons_of_ne_nil _ _ (by simp)]
          rw [joinNl_cons_of_ne_nil _ _ (by simp)] at ih
          simpa using ih

theorem sep_not_mem_splitOnChar (sep : Char) (l : List Char) :
    ∀ piece ∈ splitOnChar sep l, sep ∉ piece := by
  induction l with
  | nil =>
    intro piece hp
    simp [splitOnChar] at hp
    simp [hp]
  | cons c cs ih =>
    intro piece hp
    by_cases hc : c = sep
    · subst hc
      rw [splitOnChar, if_pos rfl] at hp
      rcases List.mem_cons.mp hp with rfl | hmem
      · simp
      · exact ih piece hmem
    · rw [splitOnChar, if_neg hc] at hp
      rcases hsp : splitOnChar sep cs with _ | ⟨l0, ls0⟩
      · exact absurd hsp (splitOnChar_ne_nil sep cs)
      · rw [hsp] at hp
        rcases List.mem_cons.mp hp with rfl | hmem
        · intro hmem2
          rcases List.mem_cons.mp hmem2 with rfl | hmem3
          · exact hc rfl
          · exact ih l0 (hsp ▸ List.mem_cons_self _ _) hmem3
        · exact ih piece (hsp ▸ List.mem_cons_of_mem _ hmem)

theorem splitOnChar_of_not_mem (sep : Char) (l : List Char) (h : sep ∉ l) :
    splitOnChar sep l = [l] := by
  induction l with
  | nil => rfl
  | cons c cs ih =>
    have hc : c ≠ sep := fun hc => h (hc ▸ List.mem_cons_self _ _)
    rw [splitOnChar, if_neg hc, ih (fun hm => h (List.mem_cons_of_mem _ hm))]

theorem splitOnChar_append_sep (sep : Char) (x rest : List Char) (hx : sep ∉ x) :
    splitOnChar sep (x ++ sep :: rest) = x :: splitOnChar sep rest := by
  induction x with
  | nil => simp [splitOnChar]
  | cons c x' ih =>
    have hc : c ≠ sep := fun hc => hx (hc ▸ List.mem_cons_self _ _)
    rw [List.cons_append, splitOnChar, if_neg hc,
      ih (fun hm => hx (List.mem_cons_of_mem _ hm))]

theorem splitOnChar_joinNl (ls : List (List Char)) (hne : ls ≠ [])
    (hnl : ∀ piece ∈ ls, '\n' ∉ piece) :
    splitOnChar '\n' (joinNl ls) = ls := by
  induction ls with
  | nil => exact absurd rfl hne
  | cons x ys ih =>
    cases ys with
    | nil =>
      rw [show joinNl [x] = x from rfl]
      exact splitOnChar_of_not_mem '\n' x (hnl x (List.mem_cons_self _ _))
    | cons y ys' =>
      rw [joinNl_cons_of_ne_nil _ _ (by simp),
        splitOnChar_append_sep '\n' x _ (hnl x (List.mem_cons_self _ _)),
        ih (by simp) (fun piece hp => hnl piece (List.mem_cons_of_mem _ hp))]

theorem utf16Units_pos (c : Char) : 0 < utf16Units c := by
  rw [utf16Units]
  split <;> omega

theorem utf16Len_cons (c : Char) (cs : List Char) :
    utf16Len (c :: cs) = utf16Units c + utf16Len cs := by
  simp [utf16Len]

theorem utf8Len_cons (c : Char) (cs : List Char) :
    utf8Len (c :: cs) = c.utf8Size + utf8Len cs := by
  simp [utf8Len]

theorem utf8Len_append (a b : List Char) :
    utf8Len (a ++ b) = utf8Len a + utf8Len b := by
  simp [utf8Len]

theorem utf8Len_take_le (t : List Char) (n : Nat) : utf8Len (t.take n) ≤ utf8Len t := by
  conv_rhs => rw [← List.take_append_drop n t]
  rw [utf8Len_append]
  omega

theorem utf16ToCharOffset_take (line : List Char) :
    ∀ k, k ≤ line.length → utf16ToCharOffset line (utf16Len (line.take k)) = k := by
  induction line with
  | nil =>
    intro k hk
    have : k = 0 := by simpa using hk
    subst this
    rfl
  | cons c cs ih =>
    intro k hk
    cases k with
    | zero => rfl
    | succ k' =>
      rw [List.take_succ_cons, utf16Len_cons]
      have hpos := utf16Units_pos c
      rw [utf16ToCharOffset, if_neg (by omega)]
      have : utf16Units c + utf16Len (cs.take k') - utf16Units c = utf16Len (cs.take k') := by
        omega
      rw [this, ih k' (by simpa using hk)]
      omega

theorem decodeUpTo_take (t : List Char) : ∀ n, decodeUpTo t (utf8Len (t.take n)) = t.take n := by
  induction t with
  | nil => intro n; simp [decodeUpTo]
  | cons c cs ih =>
    intro n
    cases n with
    | zero => rfl
    | succ n' =>
      rw [List.take_succ_cons, utf8Len_cons]
      have hpos := Char.utf8Size_pos c
      rw [decodeUpTo, if_neg (by omega), if_pos (by omega)]
      have : c.utf8Size + utf8Len (cs.take n') - c.utf8Size = utf8Len (cs.take n') := by
        omega
      rw [this, ih n']

theorem decodeUpTo_of_total_le (t : List Char) : ∀ b, utf8Len t ≤ b → decodeUpTo t b = t := by
  induction t with
  | nil => intro b _; rfl
  | cons c cs ih =>
    intro b hb
    rw [utf8Len_cons] at hb
    have hpos := Char.utf8Size_pos c
    rw [decodeUpTo, if_neg (by omega), if_pos (by omega), ih (b - c.utf8Size) (by omega)]

/-- Characters preceding line `l` in the joined text: each earlier line
plus its newline. -/
def charsBefore (lines : List (List Char)) (l : Nat) : Nat :=
  ((lines.take l).map (fun li => li.length + 1)).sum

theorem charsBefore_cons_succ (L : List Char) (rest : List (List Char)) (l : Nat) :
    charsBefore (L :: rest) (l + 1) = L.length + 1 + charsBefore rest l := by
  simp [charsBefore, Nat.add_comm]

theorem take_joinNl_decompose (lines : List (List Char)) :
    ∀ l k, l < lines.length → k ≤ (lines.getD l []).length →
    (joinNl lines).take (charsBefore lines l + k) =
      joinNl (lines.take l ++ [(lines.getD l []).take k]) := by
  induction lines with
  | nil =>
    intro l k hl
    simp at hl
  | cons L rest ih =>
    intro l k hl hk
    cases l with
    | zero =>
      simp only [List.getD_cons_zero] at hk
      show (joinNl (L :: rest)).take (0 + k) = joinNl [L.take k]
      rw [Nat.zero_add, show joinNl [L.take k] = L.take k from rfl]
      cases rest with
      | nil => rfl
      | cons y ys =>
        rw [joinNl_cons_of_ne_nil _ _ (by simp)]
        exact List.take_append_of_le_length hk
    | succ l' =>
      have hl' : l' < rest.length := by simpa using hl
      have hrest : rest ≠ [] := by
        intro h
        rw [h] at hl'
        simp at hl'
      rw [joinNl_cons_of_ne_nil _ _ hrest, charsBefore_cons_succ]
      simp only [List.getD_cons_succ] at hk ⊢
      have harr : L.length + 1 + charsBefore rest l' + k =
          L.length + (charsBefore rest l' + k + 1) := by omega
      rw [harr, List.take_append]
      have htake1 : ('\n' :: joinNl rest).take (charsBefore rest l' + k + 1) =
          '\n' :: (joinNl rest).take (charsBefore rest l' + k) := by
        rw [List.take_succ_cons]
      rw [htake1, ih l' k hl' hk]
      rw [List.take_succ_cons, List.cons_append, joinNl_cons_of_ne_nil _ _ (by simp)]

theorem joinNl_index_decompose (lines : List (List Char)) :
    lines ≠ [] → ∀ n, n ≤ (joinNl lines).length →
    ∃ l k, l < lines.length ∧ k ≤ (lines.getD l []).length ∧
      n = charsBefore lines l + k := by
  induction lines with
  | nil => intro h; exact absurd rfl h
  | cons L rest ih =>
    intro _ n hn
    cases rest with
    | nil =>
      refine ⟨0, n, by simp, ?_, by simp [charsBefore]⟩
      simpa using hn
    | cons y ys =>
      rcases le_or_lt n L.length with hcase | hcase
      · exact ⟨0, n, by simp, by simpa using hcase, by simp [charsBefore]⟩
      · rw [joinNl_cons_of_ne_nil _ _ (by simp), List.length_append,
          List.length_cons] at hn
        have hrest : n - (L.length + 1) ≤ (joinNl (y :: ys)).length := by omega
        obtain ⟨l', k, hl', hk, hn'⟩ := ih (by simp) (n - (L.length + 1)) hrest
        refine ⟨l' + 1, k, by simpa using hl', by simpa using hk, ?_⟩
        rw [charsBefore_cons_succ]
        omega

theorem clamp_of_le {a b : Nat} (h : b ≤ a) : (if a ≤ b then a else b) = b := by
  split <;> omega

theorem takenLines_no_newline (text : List Char) (l k : Nat)
    (hl : l < (splitOnChar '\n' text).length) :
    ∀ piece ∈ (splitOnChar '\n' text).take l ++
      [((splitOnChar '\n' text).getD l []).take k], '\n' ∉ piece := by
  intro piece hp
  rcases List.mem_append.mp hp with hmem | hmem
  · exact sep_not_mem_splitOnChar '\n' text piece (List.mem_of_mem_take hmem)
  · rcases List.mem_cons.mp hmem with rfl | habs
    · intro hnl
      have hmem2 : '\n' ∈ (splitOnChar '\n' text).getD l [] := List.mem_of_mem_take hnl
      rw [List.getD_eq_getElem _ _ hl] at hmem2
      exact sep_not_mem_splitOnChar '\n' text _ (List.getElem_mem hl) hmem2
    · simp at habs

theorem takenLines_length {α : Type} (ls : List (List α)) (x : List α) (l : Nat)
    (hl : l < ls.length) : (ls.take l ++ [x]).length = l + 1 := by
  simp [List.length_take, Nat.min_eq_left (Nat.le_of_lt hl)]

theorem positionToOffset_boundary (text : List Char) (line character k : Nat)
    (hl : line < (splitOnChar '\n' text).length)
    (hk : k ≤ ((splitOnChar '\n' text).getD line []).length)
    (hch : character = utf16Len (((splitOnChar '\n' text).getD line []).take k)) :
    positionToOffset text line character =
      charsBefore (splitOnChar '\n' text) line + k := by
  simp only [positionToOffset, if_pos hl]
  rw [hch, utf16ToCharOffset_take _ k hk]
  rfl

theorem byteOffsetToPosition_boundary (text : List Char) (l k : Nat)
    (hl : l < (splitOnChar '\n' text).length)
    (hk : k ≤ ((splitOnChar '\n' text).getD l []).length) :
    byteOffsetToPosition text
      (utf8Len (text.take (charsBefore (splitOnChar '\n' text) l + k))) =
    { line := l,
      character := utf16Len (((splitOnChar '\n' text).getD l []).take k) } := by
  have key := take_joinNl_decompose (splitOnChar '\n' text) l k hl hk
  rw [joinNl_splitOnChar text] at key
  have hple := utf8Len_take_le text (charsBefore (splitOnChar '\n' text) l + k)
  simp only [byteOffsetToPosition]
  rw [clamp_of_le hple, decodeUpTo_take, key,
    splitOnChar_joinNl _ (by simp) (takenLines_no_newline text l k hl),
    takenLines_length _ _ _ hl, List.getLastD_concat]
  simp

/-- C2. On the offset model of the server: (a) converting a valid in-range
position to an offset (re-encoded as a UTF-8 byte offset of the prefix)
and back yields the same position; (b) converting a byte offset at a
UTF-8 code-point boundary to a position and back yields the same byte
offset; (c) byte offsets past end-of-text are clamped to end-of-text
rather than failing. -/
theorem offset_roundtrip (text : List Char) (line character n b : Nat)
    (hpos : ValidPosition text line character) (hn : n ≤ text.length)
    (hb : utf8Len text ≤ b) :
    byteOffsetToPosition text (positionToByteOffset text line character) =
      { line := line, character := character } ∧
    positionToByteOffset text
      (byteOffsetToPosition text (utf8Len (text.take n))).line
      (byteOffsetToPosition text (utf8Len (text.take n))).character =
      utf8Len (text.take n) ∧
    byteOffsetToPosition text b = byteOffsetToPosition text (utf8Len text) := by
  refine ⟨?_, ?_, ?_⟩
  · obtain ⟨k, hl, hk, hch⟩ := hpos
    rw [positionToByteOffset, positionToOffset_boundary text line character k hl hk hch,
      byteOffsetToPosition_boundary text line k hl hk, ← hch]
  · have hlines_ne := splitOnChar_ne_nil '\n' text
    obtain ⟨l, k, hl, hk, hnk⟩ := joinNl_index_decompose (splitOnChar '\n' text)
      hlines_ne n (by rw [joinNl_splitOnChar]; exact hn)
    rw [hnk, byteOffsetToPosition_boundary text l k hl hk, positionToByteOffset,
      positionToOffset_boundary text l _ k hl hk rfl]
  · simp only [byteOffsetToPosition]
    rw [if_pos hb, if_pos (Nat.le_refl _)]

/-- Witness for C2 on the buffer `a😀\nあ` at position (0, 3), character
offset 2 and an out-of-range byte offset. -/
theorem offset_roundtrip_witness :
    ValidPosition ['a', '😀', '\n', 'あ'] 0 3 ∧
    byteOffsetToPosition ['a', '😀', '\n', 'あ']
        (positionToByteOffset ['a', '😀', '\n', 'あ'] 0 3) =
      { line := 0, character := 3 } ∧
    positionToByteOffset ['a', '😀', '\n', 'あ']
        (byteOffsetToPosition ['a', '😀', '\n', 'あ']
          (utf8Len (List.take 2 ['a', '😀', '\n', 'あ']))).line
        (byteOffsetToPosition ['a', '😀', '\n', 'あ']
          (utf8Len (List.take 2 ['a', '😀', '\n', 'あ']))).character =
      utf8Len (List.take 2 ['a', '😀', '\n', 'あ']) ∧
    byteOffsetToPosition ['a', '😀', '\n', 'あ'] 100 =
      byteOffsetToPosition ['a', '😀', '\n', 'あ'] (utf8Len ['a', '😀', '\n', 'あ']) := by
  have hpos : ValidPosition ['a', '😀', '\n', 'あ'] 0 3 := ⟨2, by decide, by decide, by decide⟩
  have h := offset_roundtrip ['a', '😀', '\n', 'あ'] 0 3 2 100 hpos (by decide) (by decide)
  exact ⟨hpos, h.1, h.2.1, h.2.2⟩

/-- Witness for C8 at a one-field feature record. -/
theorem short_feature_non_matching_witness :
    (splitOnChar ',' ['あ']).length < 7 ∧
    (splitOnChar ',' ['あ']).length < 6 ∧
    isAdversativeGa ['あ'] = false ∧ isTargetVerb ['あ'] = false ∧
    checkRaDropping [] [{ feature := ['あ'] }] [] [0] = [] := by
  have h := short_feature_non_matching ['あ'] [] [{ feature := ['あ'] }] [] [] [0] 1
  exact ⟨by decide, by decide, (h.1 (by decide)).1, h.2.1 (by decide),
    (h.2.2 (by decide)).1⟩

/-- Witness for C9 at threshold 0. -/
theorem nonpositive_threshold_disables_witness :
    (0 : Int) ≤ 0 ∧
    checkCommaLimit ['あ'] [{ «end» := 3, text := ['あ'] }] [0] 0 = [] ∧
    checkConjunctionRepeats ['あ'] [{ feature := ['接', '続', '詞'] }] [0] [0] 0 = [] := by
  have h := nonpositive_threshold_disables 0 ['あ'] [{ feature := ['接', '続', '詞'] }]
    [{ «end» := 3, text := ['あ'] }] [0] [0] (by decide)
  exact ⟨by decide, h.1, h.2.2.2.2⟩
